import Mathlib

/-!
Verification of the Candidate-Elimination learner (`ce_algorithm.py`).

The program maintains a version space bounded by a most-specific boundary `S`
and a most-general boundary `G` over conjunctive hypotheses.  A hypothesis and
an instance are both ordered sequences of one-character factors (`'Y'`, `'N'`,
the wildcard `'?'`, and the null seed marker `'0'`); labels are the characters
`'+'` and `'-'`.  We embed hypotheses and instances as `List Char` and labels
as `Char`.

Every definition below is transcribed from the corresponding Python routine of
`Representation` / `CandidateEliminator`; doc comments name the source method.
Python's list mutation (`list.remove`, `list.append` during iteration over a
clone) is rendered as a `List.foldl` over the iterated snapshot, with
`List.erase` playing the role of `list.remove` (both delete the first
occurrence of a value).  Indexed loops over two sequences are rendered as
simultaneous structural recursion; this agrees with the Python loops whenever
the sequences are long enough for every index that gets accessed, and the one
deliberate exception (`_match`, whose out-of-range behaviour is itself under
scrutiny) is embedded with an explicit error case (`matchStep`).
-/

abbrev Hyp : Type := List Char

abbrev Instance : Type := List Char

/-- A training example: an instance paired with its label character. -/
abbrev TrainEx : Type := Instance × Char

/-- The two classification outcomes (`Classifications.Positive` /
`Classifications.Negative` in the source). -/
inductive Classification : Type
  | Positive : Classification
  | Negative : Classification
deriving DecidableEq, Repr

/-- `Representation._factorMatch`: two factors match if they are equal or
either one is the wildcard `'?'`. -/
def factorMatch (factor1 factor2 : Char) : Bool :=
  if factor1 = factor2 then true
  else if factor1 ≠ '?' ∧ factor2 ≠ '?' then false
  else true

/-- `Representation._match`, faithfully: the loop walks the hypothesis
positions and indexes the instance at each of them, so a too-short instance
produces an out-of-range access.  `some b` models a normal return of `b`,
`none` models the `IndexError`. -/
def matchStep : List Char → List Char → Option Bool
  | [], _ => some true
  | _ :: _, [] => none
  | hypFactor :: hyp, insFactor :: instance_ =>
      if factorMatch hypFactor insFactor then matchStep hyp instance_
      else some false

/-- `Representation._match` as a Bool, for the call sites where the caller
guarantees the instance is at least as long as the hypothesis (every use made
by the elimination engine on well-formed data).  An out-of-range access is
never taken on such data; `matchH` maps it to `false`. -/
def matchH (hyp instance_ : List Char) : Bool :=
  decide (matchStep hyp instance_ = some true)

/-- The second loop of `Representation._moreGeneral`: walks `hyp2` and demands
that wherever `hyp2` holds a wildcard, `hyp1` does as well (indexing `hyp1`
at `hyp2`'s positions). -/
def wildImp : List Char → List Char → Bool
  | _, [] => true
  | [], _ :: _ => false
  | f1 :: hyp1, f2 :: hyp2 => (!(f2 = '?') || (f1 = '?')) && wildImp hyp1 hyp2

/-- `Representation._moreGeneral`: `hyp1` is more general than (or equal to)
`hyp2` iff `hyp1` matches `hyp2` and every wildcard of `hyp2` is a wildcard
of `hyp1`. -/
def moreGeneral (hyp1 hyp2 : List Char) : Bool :=
  matchH hyp1 hyp2 && wildImp hyp1 hyp2

/-- `Representation._moreSpecific`: `_moreGeneral` with the arguments
reversed. -/
def moreSpecific (hyp1 hyp2 : List Char) : Bool :=
  moreGeneral hyp2 hyp1

/-- The all-null seed hypothesis `('0', ..., '0')`, i.e.
`Representation._initializeS()[0]`. -/
def seedS (numFactors : Nat) : Hyp :=
  List.replicate numFactors '0'

/-- `Representation._initializeS`. -/
def initializeS (numFactors : Nat) : List Hyp :=
  [seedS numFactors]

/-- `Representation._initializeG`: the single all-wildcard hypothesis. -/
def initializeG (numFactors : Nat) : List Hyp :=
  [List.replicate numFactors '?']

/-- `Representation._isPositive`: decodes the label, raising
`TypeError("Unexpected input")` when the label is neither `'+'` nor `'-'`.
The raise is modelled as `Except.error` carrying the message. -/
def isPositive (ex : TrainEx) : Except String Bool :=
  if ex.2 = '+' then Except.ok true
  else if ex.2 = '-' then Except.ok false
  else Except.error "Unexpected input"

/-- `Representation._getMinGeneralization`, positionwise: the source first
collects `_getFactorContradictions` (the positions where `_factorMatch`
fails) and then, at each contradicting position, writes the instance's value
if the current factor is the null `'0'` and the wildcard `'?'` otherwise.
Since the rewrite at a position depends only on that position's factors, the
composition of the two loops is this `zipWith` (the lists have equal length
in every engine call). -/
def getMinGeneralization (s instance_ : List Char) : List Char :=
  List.zipWith
    (fun sFactor insFactor =>
      if factorMatch sFactor insFactor then sFactor
      else if sFactor = '0' then insFactor else '?')
    s instance_

/-- `Representation._getMinSpecializations`: one specialization per wildcard
position of `g`, in position order, replacing that wildcard with `'N'` when
the instance holds `'Y'` there and with `'Y'` otherwise.  Simultaneous
recursion renders the indexed loop (equal lengths in every engine call). -/
def getMinSpecializations : List Char → List Char → List (List Char)
  | [], _ => []
  | _ :: _, [] => []
  | factor :: g, insFactor :: instance_ =>
      (if factor = '?' then [(if insFactor = 'Y' then 'N' else 'Y') :: g] else [])
        ++ (getMinSpecializations g instance_).map (fun t => factor :: t)

/-- `Representation._processSpecializations`: the nested loop appends `hyp`
once for every `s` in `S` such that `hyp` is more general than `s` or `s` is
the all-null seed `_initializeS()[0]`. -/
def processSpecializations (numFactors : Nat) (specializations S : List Hyp) : List Hyp :=
  S.flatMap
    (fun s => specializations.filter
      (fun hyp => moreGeneral hyp s || decide (s = seedS numFactors)))

/-- `Representation._processGeneralization`: `True` when `G` is empty or some
member of `G` is more general than (or equal to) the generalization. -/
def processGeneralization (generalization : Hyp) (G : List Hyp) : Bool :=
  if G = [] then true
  else G.any (fun g => moreSpecific generalization g)

/-- `Representation._removeNonMatching`: iterate over the hypotheses and
delete (from a clone) every one that does not match the instance. -/
def removeNonMatching (hypotheses : List Hyp) (instance_ : Instance) : List Hyp :=
  hypotheses.foldl
    (fun acc g => if matchH g instance_ then acc else acc.erase g)
    hypotheses

/-- `Representation._removeMatching`: iterate over the hypotheses and delete
(from a clone) every one that matches the instance. -/
def removeMatching (hypotheses : List Hyp) (instance_ : Instance) : List Hyp :=
  hypotheses.foldl
    (fun acc s => if matchH s instance_ then acc.erase s else acc)
    hypotheses

/-- `Representation._removeMoreGeneral`: a no-op for this representation. -/
def removeMoreGeneral (hypothesis : List Hyp) : List Hyp :=
  hypothesis

/-- `Representation._removeMoreSpecific`: for each member (iterating the
original snapshot) that has a distinct strictly-dominating member in the
snapshot, delete one occurrence of it from the clone; the `try/except
ValueError: continue` makes a deletion of an already-absent value a no-op,
exactly as `List.erase` on an absent value. -/
def removeMoreSpecific (hypothesis : List Hyp) : List Hyp :=
  hypothesis.foldl
    (fun acc g1 =>
      if hypothesis.any (fun g2 => decide (g2 ≠ g1) && moreSpecific g1 g2)
      then acc.erase g1 else acc)
    hypothesis

/-- The positive-example branch of `CandidateEliminator._runAlgorithm`
(lines 32-43): filter `G` to the matching hypotheses, then rebuild `S` by
removing each non-matching member and appending its minimal generalization
when `_processGeneralization` accepts it against the already-filtered `G`;
finally apply the no-op `_removeMoreGeneral`.  Returns `(S, G)`. -/
def posStep (S G : List Hyp) (instance_ : Instance) : List Hyp × List Hyp :=
  let G' := removeNonMatching G instance_
  let Snew := S.foldl
    (fun acc s =>
      (if matchH s instance_ then acc else acc.erase s)
        ++ (if matchH s instance_ then []
            else if processGeneralization (getMinGeneralization s instance_) G'
            then [getMinGeneralization s instance_] else []))
    S
  (removeMoreGeneral Snew, G')

/-- The negative-example branch of `CandidateEliminator._runAlgorithm`
(lines 44-56): filter `S` to the non-matching hypotheses, then rebuild `G`:
for every `g` of the snapshot, delete it from the clone when it matches the
instance, and (for every `g`, matching or not) append
`_processSpecializations(_getMinSpecializations(g, d), S)`; finally prune
with `_removeMoreSpecific`.  Returns `(S, G)`. -/
def negStep (numFactors : Nat) (S G : List Hyp) (instance_ : Instance) :
    List Hyp × List Hyp :=
  let S' := removeMatching S instance_
  let Gnew := G.foldl
    (fun acc g =>
      (if matchH g instance_ then acc.erase g else acc)
        ++ processSpecializations numFactors (getMinSpecializations g instance_) S')
    G
  (S', removeMoreSpecific Gnew)

/-- The example loop of `CandidateEliminator._runAlgorithm`: process the
examples in order, stopping early when `S == G` (Python list equality), and
return the pair `(G, S)`.  A label-decoding failure propagates unmodified. -/
def runLoop (numFactors : Nat) :
    List TrainEx → List Hyp → List Hyp → Except String (List Hyp × List Hyp)
  | [], S, G => Except.ok (G, S)
  | example_ :: rest, S, G =>
    match isPositive example_ with
    | Except.error e => Except.error e
    | Except.ok pos =>
        let SG := if pos then posStep S G example_.1
                  else negStep numFactors S G example_.1
        if SG.1 = SG.2 then Except.ok (SG.2, SG.1)
        else runLoop numFactors rest SG.1 SG.2

/-- `CandidateEliminator._runAlgorithm` from the seeded boundaries. -/
def runAlgorithm (numFactors : Nat) (trainingSet : List TrainEx) :
    Except String (List Hyp × List Hyp) :=
  runLoop numFactors trainingSet (initializeS numFactors) (initializeG numFactors)

/-- The per-step trace of `_runAlgorithm`: the `(S, G)` state after each
processed example (the state the source prints), cut off at the point where
the loop breaks (converged state included) or a label error is raised. -/
def reachedStates (numFactors : Nat) :
    List TrainEx → List Hyp → List Hyp → List (List Hyp × List Hyp)
  | [], _, _ => []
  | example_ :: rest, S, G =>
    match isPositive example_ with
    | Except.error _ => []
    | Except.ok pos =>
        let SG := if pos then posStep S G example_.1
                  else negStep numFactors S G example_.1
        SG :: (if SG.1 = SG.2 then [] else reachedStates numFactors rest SG.1 SG.2)

/-- `Representation._noGmatch`: true iff no member of `G` matches the
example. -/
def noGmatch (G : List Hyp) (ex : Instance) : Bool :=
  !(G.any (fun g => matchH g ex))

/-- The inner loops of `Representation._enumerateVersionSpace`: for each
position of `g` whose factor differs (plain `!=`) from `s`'s factor at that
position, one copy of `g` with that position overwritten by `s`'s value. -/
def interpolations : List Char → List Char → List (List Char)
  | _, [] => []
  | [], _ :: _ => []
  | sFactor :: s, gFactor :: g =>
      (if gFactor ≠ sFactor then [sFactor :: g] else [])
        ++ (interpolations s g).map (fun t => gFactor :: t)

/-- `Representation._enumerateVersionSpace`: the set of everything in `S`,
everything in `G`, and every single-position interpolation of a `g` towards
`S[0]`.  The Python `set` is rendered as `List.dedup` of the accumulated
list; `S[0]` is `S.headD []` (the classifier only runs with non-empty `S`). -/
def enumerateVersionSpace (S G : List Hyp) : List Hyp :=
  let s := S.headD []
  ((S ++ G) ++ G.flatMap (fun g => interpolations s g)).dedup

/-- Python 2 `round(0.5 * length)` for a natural `length`: the product is an
exact binary float, and Python 2 rounds halves away from zero, so the result
is `length / 2` for even `length` and `length / 2 + 1` for odd `length`. -/
def pyRoundHalf (length : Nat) : Nat :=
  if length % 2 = 0 then length / 2 else length / 2 + 1

/-- `Representation._performVoting`: count the hypotheses of the enumerated
version space that the example matches, vote positive iff the count reaches
`round(0.5 * length)`, and return the vote with the evidence string
`"<matched>/<total>"`. -/
def performVoting (sToG : List Hyp) (ex : Instance) :
    Classification × Option String :=
  let satisfiedCount := sToG.countP (fun hyp => matchH hyp ex)
  let length := sToG.length
  let half := pyRoundHalf length
  if satisfiedCount ≥ half then
    (Classification.Positive, some (toString satisfiedCount ++ "/" ++ toString length))
  else
    (Classification.Negative, some (toString satisfiedCount ++ "/" ++ toString length))

/-- `Representation.classify` over a finished version space `(S, G)`. -/
def classify (S G : List Hyp) (ex : Instance) :
    Classification × Option String :=
  if matchH (S.headD []) ex then (Classification.Positive, none)
  else if noGmatch G ex then (Classification.Negative, none)
  else performVoting (enumerateVersionSpace S G) ex

/-- A factor drawn from a binary attribute domain. -/
def binChar (c : Char) : Prop := c = 'Y' ∨ c = 'N'

/-- A factor a (non-seed) hypothesis may hold. -/
def hypChar (c : Char) : Prop := c = 'Y' ∨ c = 'N' ∨ c = '?'

instance (c : Char) : Decidable (binChar c) :=
  inferInstanceAs (Decidable (c = 'Y' ∨ c = 'N'))

instance (c : Char) : Decidable (hypChar c) :=
  inferInstanceAs (Decidable (c = 'Y' ∨ c = 'N' ∨ c = '?'))

/-- A well-formed binary training set for attribute count `numFactors`:
every instance has exactly `numFactors` factors, each `'Y'` or `'N'`. -/
def WFTraining (numFactors : Nat) (trainingSet : List TrainEx) : Prop :=
  ∀ ex ∈ trainingSet, ex.1.length = numFactors ∧ ∀ c ∈ ex.1, binChar c

/-- Number of wildcard factors of a hypothesis (proof measure only). -/
def countWild (h : Hyp) : Nat :=
  h.countP (fun c => decide (c = '?'))

/-- Modelled from the spec's words, for comparison only (the source itself
computes Python 2's `round`): round-half-to-even applied to `length / 2`,
i.e. "`0.5` rounds to the nearest even integer". -/
def roundHalfToEvenHalf (length : Nat) : Nat :=
  if length % 2 = 0 then length / 2
  else if (length / 2) % 2 = 0 then length / 2 else length / 2 + 1

instance (numFactors : Nat) (trainingSet : List TrainEx) :
    Decidable (WFTraining numFactors trainingSet) :=
  inferInstanceAs
    (Decidable (∀ ex ∈ trainingSet, ex.1.length = numFactors ∧ ∀ c ∈ ex.1, binChar c))

instance (a b : Except String (List Hyp × List Hyp)) : Decidable (a = b) :=
  match a, b with
  | Except.ok x, Except.ok y =>
      if h : x = y then isTrue (by rw [h])
      else isFalse (fun hc => h (Except.ok.inj hc))
  | Except.error x, Except.error y =>
      if h : x = y then isTrue (by rw [h])
      else isFalse (fun hc => h (Except.error.inj hc))
  | Except.ok _, Except.error _ => isFalse (fun hc => Except.noConfusion hc)
  | Except.error _, Except.ok _ => isFalse (fun hc => Except.noConfusion hc)

/-- The engine invariant carried through the example loop. -/
structure WFState (numFactors : Nat) (S G : List Hyp) : Prop where
  slen : S.length ≤ 1
  sgood : ∀ s ∈ S, s.length = numFactors ∧ (s = seedS numFactors ∨ ∀ c ∈ s, hypChar c)
  gnodup : G.Nodup
  glen : ∀ g ∈ G, g.length = numFactors
  gantichain : ∀ g1 ∈ G, ∀ g2 ∈ G, g1 ≠ g2 → moreSpecific g1 g2 = false
  bounded : G = [] ∨ ∀ s ∈ S, s ≠ seedS numFactors → ∃ g ∈ G, moreGeneral g s = true

/-! ### Basic recursion facts about matching -/

theorem matchH_nil_left (i : List Char) : matchH [] i = true := by
  simp [matchH, matchStep]

theorem matchH_cons_nil (a : Char) (h : List Char) : matchH (a :: h) [] = false := by
  simp [matchH, matchStep]

theorem matchH_cons (a b : Char) (h i : List Char) :
    matchH (a :: h) (b :: i) = (factorMatch a b && matchH h i) := by
  by_cases hf : factorMatch a b = true
  · simp [matchH, matchStep, hf]
  · simp only [Bool.not_eq_true] at hf
    simp [matchH, matchStep, hf]

theorem factorMatch_refl (a : Char) : factorMatch a a = true := by
  simp [factorMatch]

/-! ### The fold-with-erase pattern

Every mutating loop of the source clones the iterated list, then deletes
and/or appends while walking the original.  The following lemma computes the
net effect: deleted values vanish exactly when the predicate says so, and the
per-element blocks are appended in iteration order. -/

theorem flatMap_const_nil (l : List Hyp) : (l.flatMap fun _ => ([] : List Hyp)) = [] := by
  induction l with
  | nil => simp
  | cons x t ih => simp [ih]

theorem foldl_erase_blocks (q : Hyp → Bool) (bl : Hyp → List Hyp) :
    ∀ (todo done : List Hyp),
      todo.foldl (fun acc g => (if q g then acc.erase g else acc) ++ bl g)
        (done.filter (fun g => !q g) ++ (todo ++ done.flatMap bl))
      = (done ++ todo).filter (fun g => !q g) ++ (done ++ todo).flatMap bl
  | [], done => by simp
  | x :: t, done => by
    rw [List.foldl_cons]
    have key : (if q x then
          (List.filter (fun g => !q g) done ++ (x :: t ++ done.flatMap bl)).erase x
        else List.filter (fun g => !q g) done ++ (x :: t ++ done.flatMap bl)) ++ bl x
        = List.filter (fun g => !q g) (done ++ [x]) ++ (t ++ (done ++ [x]).flatMap bl) := by
      by_cases hq : q x = true
      · have hnot : x ∉ List.filter (fun g => !q g) done := by
          intro hmem
          have h2 := (List.mem_filter.mp hmem).2
          simp [hq] at h2
        rw [if_pos hq, List.erase_append_right _ hnot]
        simp [List.filter_append, hq, List.append_assoc]
      · have hq' : q x = false := by simpa using hq
        rw [if_neg hq]
        simp [List.filter_append, hq', List.append_assoc]
    rw [key]
    have ih := foldl_erase_blocks q bl t (done ++ [x])
    rw [ih]
    simp only [List.append_assoc, List.singleton_append]

/-- Specialization of `foldl_erase_blocks` to a loop that starts from the
clone of the iterated list itself. -/
theorem foldl_erase_blocks_self (q : Hyp → Bool) (bl : Hyp → List Hyp) (l : List Hyp) :
    l.foldl (fun acc g => (if q g then acc.erase g else acc) ++ bl g) l
      = l.filter (fun g => !q g) ++ l.flatMap bl := by
  have h := foldl_erase_blocks q bl l []
  simpa using h

/-- Specialization to a pure deletion loop (no appended blocks). -/
theorem foldl_erase_self (q : Hyp → Bool) (l : List Hyp) :
    l.foldl (fun acc g => if q g then acc.erase g else acc) l
      = l.filter (fun g => !q g) := by
  have h := foldl_erase_blocks_self q (fun _ => []) l
  have hfn : l.foldl (fun acc g => (if q g then acc.erase g else acc) ++ []) l
      = l.foldl (fun acc g => if q g then acc.erase g else acc) l := by
    apply List.foldl_ext
    intro acc g _
    simp
  rw [hfn] at h
  rw [h, flatMap_const_nil, List.append_nil]

theorem removeMatching_eq_filter (hyps : List Hyp) (i : Instance) :
    removeMatching hyps i = hyps.filter (fun s => !matchH s i) := by
  unfold removeMatching
  exact foldl_erase_self (fun s => matchH s i) hyps

theorem removeNonMatching_eq_filter (hyps : List Hyp) (i : Instance) :
    removeNonMatching hyps i = hyps.filter (fun g => matchH g i) := by
  unfold removeNonMatching
  have hfn : hyps.foldl (fun acc g => if matchH g i then acc else acc.erase g) hyps
      = hyps.foldl (fun acc g => if !matchH g i then acc.erase g else acc) hyps := by
    apply List.foldl_ext
    intro acc g _
    by_cases hm : matchH g i = true <;> simp [hm]
  rw [hfn, foldl_erase_self (fun g => !matchH g i) hyps]
  simp

theorem removeMoreSpecific_eq_filter (l : List Hyp) :
    removeMoreSpecific l
      = l.filter (fun g1 => !(l.any (fun g2 => decide (g2 ≠ g1) && moreSpecific g1 g2))) := by
  unfold removeMoreSpecific
  exact foldl_erase_self (fun g1 => l.any (fun g2 => decide (g2 ≠ g1) && moreSpecific g1 g2)) l

/-- Membership in the pruned list: kept iff present and not strictly
dominated by a distinct member of the snapshot. -/
theorem mem_removeMoreSpecific (l : List Hyp) (y : Hyp) :
    y ∈ removeMoreSpecific l
      ↔ y ∈ l ∧ ∀ z ∈ l, z ≠ y → moreSpecific y z = false := by
  rw [removeMoreSpecific_eq_filter, List.mem_filter]
  constructor
  · rintro ⟨hy, hno⟩
    rw [Bool.not_eq_true', List.any_eq_false] at hno
    refine ⟨hy, fun z hz hne => ?_⟩
    have h := hno z hz
    by_contra hdom
    rw [Bool.not_eq_false] at hdom
    rw [hdom] at h
    simp [hne] at h
  · rintro ⟨hy, hno⟩
    refine ⟨hy, ?_⟩
    rw [Bool.not_eq_true', List.any_eq_false]
    intro z hz
    by_cases hne : z = y
    · simp [hne]
    · simp [hno z hz hne]

/-- The rebuilt `G` of the negative branch: matching members are deleted,
every member's processed specializations are appended, then the whole list is
pruned with `_removeMoreSpecific`. -/
theorem negStep_eq (n : Nat) (S G : List Hyp) (i : Instance) :
    negStep n S G i
      = (removeMatching S i,
         removeMoreSpecific
           (G.filter (fun g => !matchH g i)
             ++ G.flatMap (fun g =>
                  processSpecializations n (getMinSpecializations g i)
                    (removeMatching S i)))) := by
  show (removeMatching S i,
      removeMoreSpecific
        (G.foldl (fun acc g =>
          (if matchH g i then acc.erase g else acc)
            ++ processSpecializations n (getMinSpecializations g i) (removeMatching S i)) G))
    = _
  rw [foldl_erase_blocks_self (fun g => matchH g i)
    (fun g => processSpecializations n (getMinSpecializations g i) (removeMatching S i)) G]

/-- The rebuilt `S` of the positive branch: matching members survive in
place, and each non-matching member contributes its minimal generalization
exactly when `_processGeneralization` accepts it against the filtered `G`. -/
theorem posStep_eq (S G : List Hyp) (i : Instance) :
    posStep S G i
      = (S.filter (fun s => matchH s i)
          ++ S.flatMap (fun s =>
               if matchH s i then []
               else if processGeneralization (getMinGeneralization s i)
                        (removeNonMatching G i)
               then [getMinGeneralization s i] else []),
         removeNonMatching G i) := by
  show (S.foldl (fun acc s =>
        (if matchH s i then acc else acc.erase s)
          ++ (if matchH s i then []
              else if processGeneralization (getMinGeneralization s i)
                       (removeNonMatching G i)
              then [getMinGeneralization s i] else [])) S,
      removeNonMatching G i) = _
  have hfn : S.foldl (fun acc s =>
        (if matchH s i then acc else acc.erase s)
          ++ (if matchH s i then []
              else if processGeneralization (getMinGeneralization s i)
                       (removeNonMatching G i)
              then [getMinGeneralization s i] else [])) S
      = S.foldl (fun acc s =>
        (if !matchH s i then acc.erase s else acc)
          ++ (if matchH s i then []
              else if processGeneralization (getMinGeneralization s i)
                       (removeNonMatching G i)
              then [getMinGeneralization s i] else [])) S := by
    apply List.foldl_ext
    intro acc s _
    by_cases hm : matchH s i = true <;> simp [hm]
  rw [hfn, foldl_erase_blocks_self (fun s => !matchH s i)
    (fun s =>
      if matchH s i then []
      else if processGeneralization (getMinGeneralization s i) (removeNonMatching G i)
      then [getMinGeneralization s i] else []) S]
  simp

/-- `_processSpecializations` keeps exactly the specializations that some
member of `S` grounds (or that the all-null seed tentatively admits), one
copy per grounding member. -/
theorem mem_processSpecializations (n : Nat) (specs S : List Hyp) (h : Hyp) :
    h ∈ processSpecializations n specs S
      ↔ ∃ s ∈ S, h ∈ specs ∧ (moreGeneral h s = true ∨ s = seedS n) := by
  unfold processSpecializations
  rw [List.mem_flatMap]
  constructor
  · rintro ⟨s, hs, hmem⟩
    rw [List.mem_filter] at hmem
    refine ⟨s, hs, hmem.1, ?_⟩
    rcases Bool.or_eq_true_iff.mp hmem.2 with h1 | h2
    · exact Or.inl h1
    · exact Or.inr (of_decide_eq_true h2)
  · rintro ⟨s, hs, hspec, hcond⟩
    refine ⟨s, hs, List.mem_filter.mpr ⟨hspec, ?_⟩⟩
    rcases hcond with h1 | h2
    · simp [h1]
    · simp [h2]

/-- `_processGeneralization` accepts exactly when `G` is empty or some member
of `G` is more-general-or-equal. -/
theorem processGeneralization_iff (h : Hyp) (G : List Hyp) :
    processGeneralization h G = true ↔ (G = [] ∨ ∃ g ∈ G, moreGeneral g h = true) := by
  unfold processGeneralization
  by_cases hG : G = []
  · simp [hG]
  · simp [hG, List.any_eq_true, moreSpecific]

/-- Claim C1 (counterexample): on the first negative training example the
single member of `G` — the all-wildcard seed — matches the instance, so the
claimed procedure would remove it and add nothing (no specializations are
computed for matching members under the claim), leaving `G` empty; the code
instead computes the matching member's minimal specializations and keeps
them, producing the non-empty `G = [('N','?'), ('?','Y')]`. -/
theorem claim_C1_counterexample :
    (∀ g ∈ [['?', '?']], matchH g ['Y', 'N'] = true)
      ∧ (negStep 2 [['0', '0']] [['?', '?']] ['Y', 'N']).2 = [['N', '?'], ['?', 'Y']]
      ∧ (negStep 2 [['0', '0']] [['?', '?']] ['Y', 'N']).2 ≠ [] := by
  refine ⟨by decide, by decide, by decide⟩

/-- Claim C1 (amended): for every negative example, every hypothesis of `G`
that matches the instance is deleted, minimal specializations are computed
and appended for every hypothesis `g` of `G` — matching or not — and a
computed specialization is kept once for each member `s` of the updated `S`
that is more-specific-or-equal to it or that equals the all-null seed (so it
can be kept several times); the combined list is then pruned of members
strictly dominated by another member. -/
theorem claim_C1_amended (n : Nat) (S G : List Hyp) (i : Instance) :
    negStep n S G i
      = (removeMatching S i,
         removeMoreSpecific
           (G.filter (fun g => !matchH g i)
             ++ G.flatMap (fun g =>
                  processSpecializations n (getMinSpecializations g i)
                    (removeMatching S i))))
    ∧ (∀ h : Hyp,
        h ∈ G.flatMap (fun g =>
              processSpecializations n (getMinSpecializations g i) (removeMatching S i))
          ↔ ∃ g ∈ G, h ∈ getMinSpecializations g i
              ∧ ∃ s ∈ removeMatching S i, (moreSpecific s h = true ∨ s = seedS n)) := by
  constructor
  · exact negStep_eq n S G i
  · intro h
    rw [List.mem_flatMap]
    constructor
    · rintro ⟨g, hg, hmem⟩
      rcases (mem_processSpecializations n (getMinSpecializations g i)
          (removeMatching S i) h).mp hmem with ⟨s, hs, hspec, hcond⟩
      exact ⟨g, hg, hspec, s, hs, hcond⟩
    · rintro ⟨g, hg, hspec, s, hs, hcond⟩
      refine ⟨g, hg, (mem_processSpecializations n (getMinSpecializations g i)
          (removeMatching S i) h).mpr ⟨s, hs, hspec, hcond⟩⟩

/-- Claim C5: on a positive example, `G` keeps exactly its matching members;
each matching member of `S` is kept unchanged, and each non-matching member
of `S` is removed and replaced by its minimal generalization exactly when
`_processGeneralization` accepts it, which happens exactly when the filtered
`G` is empty or some of its members is more-general-or-equal to the
generalization. -/
theorem claim_C5 (S G : List Hyp) (i : Instance) :
    posStep S G i
      = (S.filter (fun s => matchH s i)
          ++ S.flatMap (fun s =>
               if matchH s i then []
               else if processGeneralization (getMinGeneralization s i)
                        (removeNonMatching G i)
               then [getMinGeneralization s i] else []),
         removeNonMatching G i)
    ∧ removeNonMatching G i = G.filter (fun g => matchH g i)
    ∧ (∀ h : Hyp,
        processGeneralization h (removeNonMatching G i) = true
          ↔ (removeNonMatching G i = []
              ∨ ∃ g ∈ removeNonMatching G i, moreGeneral g h = true)) :=
  ⟨posStep_eq S G i, removeNonMatching_eq_filter G i,
    fun h => processGeneralization_iff h (removeNonMatching G i)⟩

/-! ### Classifier facts -/

/-- `_getMinSpecializations`, characterized: the wildcard positions of `g`
in increasing order, each mapped to a copy of `g` whose wildcard is flipped
away from the instance's value. -/
theorem getMinSpecializations_eq (g : List Char) :
    ∀ i : List Char, g.length = i.length →
      getMinSpecializations g i
        = ((List.range g.length).filter (fun j => decide (g.getD j '0' = '?'))).map
            (fun j => g.set j (if i.getD j '0' = 'Y' then 'N' else 'Y')) := by
  induction g with
  | nil => intro i h; simp [getMinSpecializations]
  | cons a gt ih =>
    intro i h
    cases i with
    | nil => simp at h
    | cons b it =>
      simp only [List.length_cons, Nat.succ.injEq] at h
      rw [show getMinSpecializations (a :: gt) (b :: it)
          = (if a = '?' then [(if b = 'Y' then 'N' else 'Y') :: gt] else [])
            ++ (getMinSpecializations gt it).map (fun t => a :: t) from rfl]
      rw [ih it h]
      rw [List.length_cons, List.range_succ_eq_map, List.filter_cons]
      by_cases ha : a = '?' <;>
        simp [ha, List.filter_map, List.map_map, Function.comp_def]

/-- The interpolation loop of `_enumerateVersionSpace`, characterized: the
positions of `g` whose factor differs from `s`'s, each mapped to a copy of
`g` overwritten with `s`'s value there. -/
theorem interpolations_eq (s : List Char) :
    ∀ g : List Char, s.length = g.length →
      interpolations s g
        = ((List.range g.length).filter
            (fun j => decide (g.getD j '0' ≠ s.getD j '0'))).map
            (fun j => g.set j (s.getD j '0')) := by
  induction s with
  | nil =>
    intro g h
    cases g with
    | nil => simp [interpolations]
    | cons d gt => simp at h
  | cons c st ih =>
    intro g h
    cases g with
    | nil => simp [interpolations]
    | cons d gt =>
      simp only [List.length_cons, Nat.succ.injEq] at h
      rw [show interpolations (c :: st) (d :: gt)
          = (if d ≠ c then [c :: gt] else [])
            ++ (interpolations st gt).map (fun t => d :: t) from rfl]
      rw [ih gt h]
      rw [List.length_cons, List.range_succ_eq_map, List.filter_cons]
      by_cases hd : d = c <;>
        simp [hd, List.filter_map, List.map_map, Function.comp_def]

/-- Claim C8: `_getMinSpecializations` returns exactly one specialization per
wildcard position of `g`, in position order, each equal to `g` except that
the wildcard is replaced by `'N'` when the instance holds `'Y'` at that
position and by `'Y'` otherwise; in particular on the all-wildcard hypothesis
of width 3 and instance `('Y','N','Y')` it returns exactly
`[('N','?','?'), ('?','Y','?'), ('?','?','N')]`. -/
theorem claim_C8 (g i : List Char) (hl : g.length = i.length) :
    getMinSpecializations g i
      = ((List.range g.length).filter (fun j => decide (g.getD j '0' = '?'))).map
          (fun j => g.set j (if i.getD j '0' = 'Y' then 'N' else 'Y'))
    ∧ getMinSpecializations ['?','?','?'] ['Y','N','Y']
        = [['N','?','?'], ['?','Y','?'], ['?','?','N']] :=
  ⟨getMinSpecializations_eq g i hl, by decide⟩

/-- Witness for `claim_C8` at a concrete hypothesis and instance. -/
theorem claim_C8_witness :
    (['?','?'] : List Char).length = (['Y','N'] : List Char).length
    ∧ getMinSpecializations ['?','?'] ['Y','N']
        = ((List.range (['?','?'] : List Char).length).filter
            (fun j => decide ((['?','?'] : List Char).getD j '0' = '?'))).map
            (fun j => (['?','?'] : List Char).set j
              (if (['Y','N'] : List Char).getD j '0' = 'Y' then 'N' else 'Y')) :=
  ⟨by decide, (claim_C8 ['?','?'] ['Y','N'] (by decide)).1⟩

/-- Claim C6: `classify` returns the positive label with absent evidence when
the instance matches `S[0]`, otherwise the negative label with absent
evidence when no member of `G` matches, and only otherwise falls through to
voting over the interpolated version space. -/
theorem claim_C6 (S G : List Hyp) (e : Instance) (_hS : S ≠ []) :
    (matchH (S.headD []) e = true → classify S G e = (Classification.Positive, none))
    ∧ (matchH (S.headD []) e = false → noGmatch G e = true →
        classify S G e = (Classification.Negative, none))
    ∧ (matchH (S.headD []) e = false → noGmatch G e = false →
        classify S G e = performVoting (enumerateVersionSpace S G) e)
    ∧ (noGmatch G e = true ↔ ∀ g ∈ G, matchH g e = false) := by
  refine ⟨?_, ?_, ?_, ?_⟩
  · intro h
    unfold classify
    rw [h]
    simp
  · intro h1 h2
    unfold classify
    rw [h1, h2]
    simp
  · intro h1 h2
    unfold classify
    rw [h1, h2]
    simp
  · simp [noGmatch, List.any_eq_false]

/-- Witness for `claim_C6` at a converged singleton version space. -/
theorem claim_C6_witness :
    classify [['Y','N']] [['Y','N']] ['Y','N'] = (Classification.Positive, none) :=
  (claim_C6 [['Y','N']] [['Y','N']] ['Y','N'] (by decide)).1 (by decide)

/-- Claim C7: the enumerated version space is duplicate-free and its members
are exactly the members of `S`, the members of `G`, and, for each `g` in `G`,
the copies of `g` with one position that differs from `S[0]` overwritten by
`S[0]`'s value at that position. -/
theorem claim_C7 (S G : List Hyp) (_hS : S ≠ [])
    (hlen : ∀ g ∈ G, g.length = (S.headD []).length) :
    (enumerateVersionSpace S G).Nodup
    ∧ ∀ x : Hyp,
        x ∈ enumerateVersionSpace S G
          ↔ (x ∈ S ∨ x ∈ G
              ∨ ∃ g ∈ G, ∃ j, j < g.length
                  ∧ g.getD j '0' ≠ (S.headD []).getD j '0'
                  ∧ x = g.set j ((S.headD []).getD j '0')) := by
  constructor
  · exact List.nodup_dedup _
  · intro x
    show x ∈ ((S ++ G) ++ G.flatMap (fun g => interpolations (S.headD []) g)).dedup ↔ _
    rw [List.mem_dedup]
    simp only [List.mem_append, List.mem_flatMap, or_assoc]
    constructor
    · rintro (h1 | h2 | ⟨g, hg, hx⟩)
      · exact Or.inl h1
      · exact Or.inr (Or.inl h2)
      · rw [interpolations_eq _ g (hlen g hg).symm, List.mem_map] at hx
        obtain ⟨j, hj, hxe⟩ := hx
        rw [List.mem_filter, List.mem_range] at hj
        exact Or.inr (Or.inr ⟨g, hg, j, hj.1, of_decide_eq_true hj.2, hxe.symm⟩)
    · rintro (h1 | h2 | ⟨g, hg, j, hjlt, hne, hxe⟩)
      · exact Or.inl h1
      · exact Or.inr (Or.inl h2)
      · refine Or.inr (Or.inr ⟨g, hg, ?_⟩)
        rw [interpolations_eq _ g (hlen g hg).symm, List.mem_map]
        exact ⟨j, List.mem_filter.mpr ⟨List.mem_range.mpr hjlt, decide_eq_true hne⟩, hxe.symm⟩

/-- Witness for `claim_C7` at a concrete version space and query hypothesis. -/
theorem claim_C7_witness :
    (enumerateVersionSpace [['Y','Y','Y']] [['?','?','?']]).Nodup
    ∧ (['Y','?','?'] ∈ enumerateVersionSpace [['Y','Y','Y']] [['?','?','?']]
        ↔ (['Y','?','?'] ∈ ([[ 'Y','Y','Y']] : List Hyp)
            ∨ ['Y','?','?'] ∈ ([[ '?','?','?']] : List Hyp)
            ∨ ∃ g ∈ ([[ '?','?','?']] : List Hyp), ∃ j, j < g.length
                ∧ g.getD j '0' ≠ (([[ 'Y','Y','Y']] : List Hyp).headD []).getD j '0'
                ∧ ['Y','?','?'] = g.set j ((([[ 'Y','Y','Y']] : List Hyp).headD []).getD j '0'))) :=
  ⟨(claim_C7 [['Y','Y','Y']] [['?','?','?']] (by decide) (by decide)).1,
    (claim_C7 [['Y','Y','Y']] [['?','?','?']] (by decide) (by decide)).2 ['Y','?','?']⟩

/-- Claim C2 (counterexample): for `S = [('Y','Y','Y')]`,
`G = [('?','?','?')]` the instance `('Y','N','N')` is ambiguous; the
deduplicated interpolated version space has 5 members of which 2 match, and
round-half-to-even gives `round(2.5) = 2 ≤ 2`, so the claim as stated votes
positive — but the code (Python 2 `round` is round-half-away-from-zero, so
`round(2.5) = 3`) returns the negative label, with evidence `"2/5"`. -/
theorem claim_C2_counterexample :
    matchH (([['Y','Y','Y']] : List Hyp).headD []) ['Y','N','N'] = false
    ∧ noGmatch [['?','?','?']] ['Y','N','N'] = false
    ∧ (enumerateVersionSpace [['Y','Y','Y']] [['?','?','?']]).length = 5
    ∧ (enumerateVersionSpace [['Y','Y','Y']] [['?','?','?']]).countP
        (fun hyp => matchH hyp ['Y','N','N']) = 2
    ∧ 2 ≥ roundHalfToEvenHalf 5
    ∧ classify [['Y','Y','Y']] [['?','?','?']] ['Y','N','N']
        = (Classification.Negative, some "2/5") := by
  refine ⟨by decide, by decide, by decide, by decide, by decide, by decide⟩

/-- Claim C2 (amended): for every ambiguous instance the vote is positive iff
`matched ≥ round(0.5 × total)` where `round` is Python 2's
round-half-away-from-zero (`pyRoundHalf`), with `matched` the number of
matching members and `total` the size of the deduplicated interpolated
version space; in both outcomes the evidence string is exactly
`"<matched>/<total>"`. -/
theorem claim_C2_amended (S G : List Hyp) (e : Instance)
    (h1 : matchH (S.headD []) e = false) (h2 : noGmatch G e = false) :
    classify S G e
      = (if (enumerateVersionSpace S G).countP (fun hyp => matchH hyp e)
            ≥ pyRoundHalf (enumerateVersionSpace S G).length
         then Classification.Positive else Classification.Negative,
         some (toString ((enumerateVersionSpace S G).countP (fun hyp => matchH hyp e))
               ++ "/" ++ toString (enumerateVersionSpace S G).length)) := by
  unfold classify
  rw [h1, h2]
  simp only [Bool.false_eq_true, if_false]
  unfold performVoting
  by_cases hv : (enumerateVersionSpace S G).countP (fun hyp => matchH hyp e)
      ≥ pyRoundHalf (enumerateVersionSpace S G).length
  · simp [hv]
  · simp [hv]

/-- Witness for `claim_C2_amended` at a concrete ambiguous instance. -/
theorem claim_C2_witness :
    classify [['Y','Y','Y']] [['?','?','?']] ['Y','Y','N']
      = (Classification.Positive, some "3/5") := by
  have h := claim_C2_amended [['Y','Y','Y']] [['?','?','?']] ['Y','Y','N']
    (by decide) (by decide)
  rw [h]
  decide

/-- Claim C9: `_isPositive` returns true when the label is `'+'`, false when
it is `'-'`, and raises `TypeError("Unexpected input")` exactly when it is
neither; the elimination loop propagates that error unmodified, with no
recovery or retry. -/
theorem claim_C9 (ex : TrainEx) :
    (ex.2 = '+' → isPositive ex = Except.ok true)
    ∧ (ex.2 = '-' → isPositive ex = Except.ok false)
    ∧ (ex.2 ≠ '+' → ex.2 ≠ '-' → isPositive ex = Except.error "Unexpected input")
    ∧ (∀ (n : Nat) (rest : List TrainEx) (S G : List Hyp) (msg : String),
        isPositive ex = Except.error msg →
        runLoop n (ex :: rest) S G = Except.error msg) := by
  refine ⟨?_, ?_, ?_, ?_⟩
  · intro h
    simp [isPositive, h]
  · intro h
    simp [isPositive, h]
  · intro h1 h2
    simp [isPositive, h1, h2]
  · intro n rest S G msg herr
    simp only [runLoop, herr]

/-- Witness for `claim_C9` at an example whose label is the invalid `'*'`. -/
theorem claim_C9_witness :
    isPositive (['Y'], '*') = Except.error "Unexpected input"
    ∧ runLoop 1 [(['Y'], '*')] (initializeS 1) (initializeG 1)
        = Except.error "Unexpected input" :=
  ⟨(claim_C9 (['Y'], '*')).2.2.1 (by decide) (by decide),
    (claim_C9 (['Y'], '*')).2.2.2 1 [] (initializeS 1) (initializeG 1)
      "Unexpected input" ((claim_C9 (['Y'], '*')).2.2.1 (by decide) (by decide))⟩

/-- Claim C10: `_match` inspects only the first `len(hyp)` positions of the
instance — with an instance at least as long the result is defined and the
trailing attributes are ignored; with a shorter instance the loop raises an
out-of-range access (modelled `none`) precisely when every present position
matches, and otherwise returns an ordinary `False`; no dedicated
malformed-instance error exists. -/
theorem claim_C10 (h i : List Char) :
    matchStep h i = matchStep h (i.take h.length)
    ∧ (h.length ≤ i.length → ∃ b, matchStep h i = some b)
    ∧ (i.length < h.length →
        (matchStep h i = none
          ↔ ∀ j, j < i.length → factorMatch (h.getD j '0') (i.getD j '0') = true)) := by
  refine ⟨?_, ?_, ?_⟩
  · induction h generalizing i with
    | nil => simp [matchStep]
    | cons a h' ih =>
      cases i with
      | nil => simp [matchStep]
      | cons b i' =>
        show matchStep (a :: h') (b :: i')
            = matchStep (a :: h') (b :: i'.take h'.length)
        by_cases hf : factorMatch a b = true
        · simp [matchStep, hf, ih i']
        · simp only [Bool.not_eq_true] at hf
          simp [matchStep, hf]
  · induction h generalizing i with
    | nil => intro _; exact ⟨true, rfl⟩
    | cons a h' ih =>
      intro hlen
      cases i with
      | nil => simp at hlen
      | cons b i' =>
        simp only [List.length_cons, Nat.succ_le_succ_iff] at hlen
        by_cases hf : factorMatch a b = true
        · obtain ⟨c, hc⟩ := ih i' hlen
          exact ⟨c, by simp [matchStep, hf, hc]⟩
        · simp only [Bool.not_eq_true] at hf
          exact ⟨false, by simp [matchStep, hf]⟩
  · induction h generalizing i with
    | nil =>
      intro hlen
      simp at hlen
    | cons a h' ih =>
      intro hlen
      cases i with
      | nil =>
        simp [matchStep]
      | cons b i' =>
        simp only [List.length_cons, Nat.succ_lt_succ_iff] at hlen
        by_cases hf : factorMatch a b = true
        · rw [show matchStep (a :: h') (b :: i') = matchStep h' i' by simp [matchStep, hf]]
          rw [ih i' hlen]
          constructor
          · intro hall j hj
            cases j with
            | zero => simpa using hf
            | succ j' =>
              simp only [List.getD_cons_succ]
              exact hall j' (by simpa using hj)
          · intro hall j hj
            have := hall (j + 1) (by simpa using hj)
            simpa using this
        · simp only [Bool.not_eq_true] at hf
          rw [show matchStep (a :: h') (b :: i') = some false by simp [matchStep, hf]]
          constructor
          · intro hc
            exact absurd hc (by simp)
          · intro hall
            have := hall 0 (by simp)
            simp [hf] at this

/-- Witness for `claim_C10`: the instance `('Y')` is shorter than the
hypothesis `('Y','N')` and matches at every present position, so `_match`
ends in the out-of-range access instead of returning a boolean. -/
theorem claim_C10_witness :
    (['Y'] : List Char).length < (['Y','N'] : List Char).length
    ∧ matchStep ['Y','N'] ['Y'] = none :=
  ⟨by decide, ((claim_C10 ['Y','N'] ['Y']).2.2 (by decide)).mpr (by decide)⟩

/-! ### The generality order -/

theorem factorMatch_iff (a b : Char) :
    factorMatch a b = true ↔ (a = b ∨ a = '?' ∨ b = '?') := by
  unfold factorMatch
  by_cases h1 : a = b <;> by_cases h2 : a = '?' <;> by_cases h3 : b = '?' <;> simp_all

theorem factorMatch_eq_false_iff (a b : Char) :
    factorMatch a b = false ↔ (a ≠ b ∧ a ≠ '?' ∧ b ≠ '?') := by
  rw [← Bool.not_eq_true, factorMatch_iff]
  tauto

theorem matchH_cons_iff (a b : Char) (h i : List Char) :
    matchH (a :: h) (b :: i) = true ↔ (factorMatch a b = true ∧ matchH h i = true) := by
  rw [matchH_cons, Bool.and_eq_true]

theorem wildCond_iff (a b : Char) :
    (!(b = '?') || (a = '?')) = true ↔ (b = '?' → a = '?') := by
  by_cases h1 : b = '?' <;> by_cases h2 : a = '?' <;> simp_all

theorem moreGeneral_cons_iff (a b : Char) (t1 t2 : List Char) :
    moreGeneral (a :: t1) (b :: t2) = true
      ↔ (factorMatch a b = true ∧ (b = '?' → a = '?') ∧ moreGeneral t1 t2 = true) := by
  unfold moreGeneral
  rw [matchH_cons]
  rw [show wildImp (a :: t1) (b :: t2)
      = ((!(b = '?') || (a = '?')) && wildImp t1 t2) from rfl]
  rw [← wildCond_iff a b]
  cases factorMatch a b <;> cases matchH t1 t2 <;>
    cases (!(b = '?') || (a = '?')) <;> cases wildImp t1 t2 <;> simp_all

theorem moreGeneral_nil_nil : moreGeneral [] [] = true := rfl

theorem moreGeneral_nil_left (b : Char) (t : List Char) :
    moreGeneral [] (b :: t) = false := rfl

theorem moreGeneral_nil_right (a : Char) (t : List Char) :
    moreGeneral (a :: t) [] = false := by
  simp [moreGeneral, matchH_cons_nil]

theorem moreGeneral_length : ∀ {a b : List Char},
    moreGeneral a b = true → a.length = b.length := by
  intro a
  induction a with
  | nil =>
    intro b h
    cases b with
    | nil => rfl
    | cons y u => rw [moreGeneral_nil_left] at h; exact absurd h (by simp)
  | cons x t ih =>
    intro b h
    cases b with
    | nil => rw [moreGeneral_nil_right] at h; exact absurd h (by simp)
    | cons y u =>
      rcases (moreGeneral_cons_iff x y t u).mp h with ⟨_, _, h3⟩
      simp [ih h3]

theorem moreGeneral_refl (h : List Char) : moreGeneral h h = true := by
  induction h with
  | nil => rfl
  | cons a t ih =>
    exact (moreGeneral_cons_iff a a t t).mpr ⟨factorMatch_refl a, fun hq => hq, ih⟩

theorem moreGeneral_trans : ∀ {a b c : List Char},
    moreGeneral a b = true → moreGeneral b c = true → moreGeneral a c = true := by
  intro a
  induction a with
  | nil =>
    intro b c h1 h2
    cases b with
    | nil =>
      cases c with
      | nil => rfl
      | cons z w => rw [moreGeneral_nil_left] at h2; exact absurd h2 (by simp)
    | cons y v => rw [moreGeneral_nil_left] at h1; exact absurd h1 (by simp)
  | cons x t ih =>
    intro b c h1 h2
    cases b with
    | nil => rw [moreGeneral_nil_right] at h1; exact absurd h1 (by simp)
    | cons y v =>
      cases c with
      | nil => rw [moreGeneral_nil_right] at h2; exact absurd h2 (by simp)
      | cons z w =>
        rcases (moreGeneral_cons_iff x y t v).mp h1 with ⟨f1, w1, m1⟩
        rcases (moreGeneral_cons_iff y z v w).mp h2 with ⟨f2, w2, m2⟩
        refine (moreGeneral_cons_iff x z t w).mpr ⟨?_, fun hz => w1 (w2 hz), ih m1 m2⟩
        rw [factorMatch_iff] at f1 f2 ⊢
        by_cases hx : x = '?'
        · exact Or.inr (Or.inl hx)
        · by_cases hz : z = '?'
          · exact Or.inr (Or.inr hz)
          · rcases f2 with hyz | hyq | hzq
            · rcases f1 with hxy | hxq | hyq'
              · exact Or.inl (hxy.trans hyz)
              · exact absurd hxq hx
              · exact absurd (hyz.symm.trans hyq') hz
            · exact absurd (w1 hyq) hx
            · exact absurd hzq hz

theorem moreGeneral_antisymm : ∀ {a b : List Char},
    moreGeneral a b = true → moreGeneral b a = true → a = b := by
  intro a
  induction a with
  | nil =>
    intro b h1 _
    cases b with
    | nil => rfl
    | cons y v => rw [moreGeneral_nil_left] at h1; exact absurd h1 (by simp)
  | cons x t ih =>
    intro b h1 h2
    cases b with
    | nil => rw [moreGeneral_nil_right] at h1; exact absurd h1 (by simp)
    | cons y v =>
      rcases (moreGeneral_cons_iff x y t v).mp h1 with ⟨f1, w1, m1⟩
      rcases (moreGeneral_cons_iff y x v t).mp h2 with ⟨_, w2, m2⟩
      have ht : t = v := ih m1 m2
      have hx : x = y := by
        by_cases hxq : x = '?'
        · rw [hxq, w2 hxq]
        · by_cases hyq : y = '?'
          · exact absurd (w1 hyq) hxq
          · rw [factorMatch_iff] at f1
            rcases f1 with h | h | h
            · exact h
            · exact absurd h hxq
            · exact absurd h hyq
      rw [hx, ht]

/-- If `g` is more general than `s` and `s` matches an instance then `g`
matches it as well. -/
theorem matchH_of_moreGeneral : ∀ {g s i : List Char},
    moreGeneral g s = true → matchH s i = true → matchH g i = true := by
  intro g
  induction g with
  | nil => intro s i _ _; exact matchH_nil_left i
  | cons x t ih =>
    intro s i h1 h2
    cases s with
    | nil => rw [moreGeneral_nil_right] at h1; exact absurd h1 (by simp)
    | cons y v =>
      cases i with
      | nil => rw [matchH_cons_nil] at h2; exact absurd h2 (by simp)
      | cons b w =>
        rcases (moreGeneral_cons_iff x y t v).mp h1 with ⟨f1, w1, m1⟩
        rcases (matchH_cons_iff y b v w).mp h2 with ⟨f2, m2⟩
        refine (matchH_cons_iff x b t w).mpr ⟨?_, ih m1 m2⟩
        rw [factorMatch_iff] at f1 f2 ⊢
        by_cases hxq : x = '?'
        · exact Or.inr (Or.inl hxq)
        · by_cases hbq : b = '?'
          · exact Or.inr (Or.inr hbq)
          · rcases f2 with hyb | hyq | hbq'
            · rcases f1 with hxy | hxq' | hyq'
              · exact Or.inl (hxy.trans hyb)
              · exact absurd hxq' hxq
              · exact absurd (w1 hyq') hxq
            · exact absurd (w1 hyq) hxq
            · exact absurd hbq' hbq

theorem countWild_cons (x : Char) (t : List Char) :
    countWild (x :: t) = countWild t + (if x = '?' then 1 else 0) := by
  by_cases h : x = '?' <;> simp [countWild, List.countP_cons, h]

theorem countWild_le_length (h : List Char) : countWild h ≤ h.length :=
  List.countP_le_length _

/-- Strict domination strictly increases the number of wildcards. -/
theorem countWild_lt_of_strict : ∀ {a b : List Char},
    moreGeneral b a = true → a ≠ b → countWild a < countWild b := by
  intro a
  induction a with
  | nil =>
    intro b h hne
    have hblen : b.length = 0 := by simpa using moreGeneral_length h
    rw [List.length_eq_zero] at hblen
    exact absurd hblen.symm hne
  | cons x t ih =>
    intro b h hne
    cases b with
    | nil => rw [moreGeneral_nil_left] at h; exact absurd h (by simp)
    | cons y u =>
      rcases (moreGeneral_cons_iff y x u t).mp h with ⟨f, w, m⟩
      rw [countWild_cons, countWild_cons]
      by_cases hteq : t = u
      · have hxy : x ≠ y := fun hcontra => hne (by rw [hcontra, hteq])
        have hxq : x ≠ '?' := by
          intro hxq
          exact hxy (by rw [hxq, w hxq])
        have hyq : y = '?' := by
          rw [factorMatch_iff] at f
          rcases f with h' | h' | h'
          · exact absurd h'.symm hxy
          · exact h'
          · exact absurd h' hxq
        subst hteq
        simp [hxq, hyq]
      · have htlt : countWild t < countWild u := ih m hteq
        have hmono : (if x = '?' then 1 else 0) ≤ (if y = '?' then 1 else 0) := by
          by_cases hxq : x = '?'
          · simp [hxq, w hxq]
          · simp [hxq]
        omega

/-! ### Facts about minimal specializations -/

/-- Every computed specialization is strictly below its parent. -/
theorem moreGeneral_of_mem_getMinSpecializations :
    ∀ {g i p : List Char}, p ∈ getMinSpecializations g i →
      moreGeneral g p = true ∧ p ≠ g := by
  intro g
  induction g with
  | nil => intro i p hp; simp [getMinSpecializations] at hp
  | cons a gt ih =>
    intro i p hp
    cases i with
    | nil => simp [getMinSpecializations] at hp
    | cons b it =>
      rw [show getMinSpecializations (a :: gt) (b :: it)
          = (if a = '?' then [(if b = 'Y' then 'N' else 'Y') :: gt] else [])
            ++ (getMinSpecializations gt it).map (fun t => a :: t) from rfl,
        List.mem_append] at hp
      rcases hp with hp | hp
      · by_cases ha : a = '?'
        · rw [if_pos ha, List.mem_singleton] at hp
          subst hp
          refine ⟨?_, ?_⟩
          · refine (moreGeneral_cons_iff a _ gt gt).mpr
              ⟨?_, fun _ => ha, moreGeneral_refl gt⟩
            rw [factorMatch_iff]
            exact Or.inr (Or.inl ha)
          · intro hcontra
            have hc : (if b = 'Y' then 'N' else 'Y') = a := by injection hcontra
            by_cases hb : b = 'Y' <;> simp [hb, ha] at hc
        · rw [if_neg ha] at hp
          simp at hp
      · rw [List.mem_map] at hp
        obtain ⟨t, ht, rfl⟩ := hp
        obtain ⟨h1, h2⟩ := ih ht
        refine ⟨(moreGeneral_cons_iff a a gt t).mpr
          ⟨factorMatch_refl a, fun hq => hq, h1⟩, ?_⟩
        intro hcontra
        apply h2
        injection hcontra with hh ht2

/-- `_getMinSpecializations` produces pairwise-distinct hypotheses. -/
theorem getMinSpecializations_nodup : ∀ (g i : List Char),
    (getMinSpecializations g i).Nodup := by
  intro g
  induction g with
  | nil => intro i; simp [getMinSpecializations]
  | cons a gt ih =>
    intro i
    cases i with
    | nil => simp [getMinSpecializations]
    | cons b it =>
      rw [show getMinSpecializations (a :: gt) (b :: it)
          = (if a = '?' then [(if b = 'Y' then 'N' else 'Y') :: gt] else [])
            ++ (getMinSpecializations gt it).map (fun t => a :: t) from rfl]
      apply List.Nodup.append
      · by_cases ha : a = '?' <;> simp [ha]
      · exact (ih it).map (fun t1 t2 h => by injection h)
      · intro x hx1 hx2
        by_cases ha : a = '?'
        · rw [if_pos ha, List.mem_singleton] at hx1
          rw [List.mem_map] at hx2
          obtain ⟨t, _, ht2⟩ := hx2
          rw [hx1] at ht2
          have hc : a = (if b = 'Y' then 'N' else 'Y') := by injection ht2
          by_cases hb : b = 'Y' <;> simp [hb, ha] at hc
        · rw [if_neg ha] at hx1
          simp at hx1

/-- For a binary instance, two distinct hypotheses that both match it can
never share a minimal specialization. -/
theorem getMinSpecializations_parent_unique :
    ∀ {g1 g2 i p : List Char}, (∀ c ∈ i, binChar c) →
      matchH g1 i = true → matchH g2 i = true →
      p ∈ getMinSpecializations g1 i → p ∈ getMinSpecializations g2 i →
      g1 = g2 := by
  intro g1
  induction g1 with
  | nil => intro g2 i p _ _ _ hp _; simp [getMinSpecializations] at hp
  | cons a1 t1 ih =>
    intro g2 i p hbin hm1 hm2 hp1 hp2
    cases i with
    | nil => simp [getMinSpecializations] at hp1
    | cons b it =>
      cases g2 with
      | nil => simp [getMinSpecializations] at hp2
      | cons a2 t2 =>
        have hbbin : binChar b := hbin b (List.mem_cons_self b it)
        have hflip : factorMatch (if b = 'Y' then 'N' else 'Y') b = false := by
          rcases hbbin with hb | hb <;> subst hb <;> decide
        rcases (matchH_cons_iff a1 b t1 it).mp hm1 with ⟨hf1, hm1'⟩
        rcases (matchH_cons_iff a2 b t2 it).mp hm2 with ⟨hf2, hm2'⟩
        rw [show getMinSpecializations (a1 :: t1) (b :: it)
            = (if a1 = '?' then [(if b = 'Y' then 'N' else 'Y') :: t1] else [])
              ++ (getMinSpecializations t1 it).map (fun t => a1 :: t) from rfl,
          List.mem_append] at hp1
        rw [show getMinSpecializations (a2 :: t2) (b :: it)
            = (if a2 = '?' then [(if b = 'Y' then 'N' else 'Y') :: t2] else [])
              ++ (getMinSpecializations t2 it).map (fun t => a2 :: t) from rfl,
          List.mem_append] at hp2
        rcases hp1 with hp1 | hp1 <;> rcases hp2 with hp2 | hp2
        · by_cases h1 : a1 = '?'
          · by_cases h2 : a2 = '?'
            · rw [if_pos h1, List.mem_singleton] at hp1
              rw [if_pos h2, List.mem_singleton] at hp2
              rw [hp1] at hp2
              have ht : t1 = t2 := by injection hp2
              rw [h1, h2, ht]
            · rw [if_neg h2] at hp2; simp at hp2
          · rw [if_neg h1] at hp1; simp at hp1
        · by_cases h1 : a1 = '?'
          · rw [if_pos h1, List.mem_singleton] at hp1
            rw [List.mem_map] at hp2
            obtain ⟨u, _, hu⟩ := hp2
            rw [hp1] at hu
            have ha2 : a2 = (if b = 'Y' then 'N' else 'Y') := by injection hu
            rw [ha2, hflip] at hf2
            exact absurd hf2 (by simp)
          · rw [if_neg h1] at hp1; simp at hp1
        · by_cases h2 : a2 = '?'
          · rw [if_pos h2, List.mem_singleton] at hp2
            rw [List.mem_map] at hp1
            obtain ⟨u, _, hu⟩ := hp1
            rw [hp2] at hu
            have ha1 : a1 = (if b = 'Y' then 'N' else 'Y') := by injection hu
            rw [ha1, hflip] at hf1
            exact absurd hf1 (by simp)
          · rw [if_neg h2] at hp2; simp at hp2
        · rw [List.mem_map] at hp1 hp2
          obtain ⟨u1, hu1, he1⟩ := hp1
          obtain ⟨u2, hu2, he2⟩ := hp2
          rw [← he1] at he2
          have hhead : a1 = a2 := by injection he2 with h1 h2; exact h1.symm
          have htail : u1 = u2 := by injection he2 with h1 h2; exact h2.symm
          rw [htail] at hu1
          have := ih (fun c hc => hbin c (List.mem_cons_of_mem _ hc)) hm1' hm2' hu1 hu2
          rw [hhead, this]

/-- If `g` bounds a non-seed hypothesis `s` that fails a binary negative
instance which `g` matches, then some minimal specialization of `g` still
bounds `s`. -/
theorem exists_spec_moreGeneral :
    ∀ {g s i : List Char}, (∀ c ∈ i, binChar c) → (∀ c ∈ s, hypChar c) →
      moreGeneral g s = true → matchH g i = true → matchH s i = false →
      ∃ p ∈ getMinSpecializations g i, moreGeneral p s = true := by
  intro g
  induction g with
  | nil =>
    intro s i _ _ hgs _ hsi
    have hs : s = [] := by
      have := moreGeneral_length hgs
      simp at this
      exact List.length_eq_zero.mp this.symm
    rw [hs, matchH_nil_left] at hsi
    exact absurd hsi (by simp)
  | cons a gt ih =>
    intro s i hbin hchar hgs hgi hsi
    cases s with
    | nil => rw [moreGeneral_nil_right] at hgs; exact absurd hgs (by simp)
    | cons c st =>
      cases i with
      | nil => rw [matchH_cons_nil] at hgi; exact absurd hgi (by simp)
      | cons b it =>
        rcases (moreGeneral_cons_iff a c gt st).mp hgs with ⟨hfac, hwc, hgs'⟩
        rcases (matchH_cons_iff a b gt it).mp hgi with ⟨hfab, hgi'⟩
        by_cases hfcb : factorMatch c b = true
        · have hst : matchH st it = false := by
            rw [matchH_cons, hfcb, Bool.true_and] at hsi
            exact hsi
          obtain ⟨p', hp'mem, hp'ge⟩ := ih (fun x hx => hbin x (List.mem_cons_of_mem _ hx))
            (fun x hx => hchar x (List.mem_cons_of_mem _ hx)) hgs' hgi' hst
          refine ⟨a :: p', ?_, ?_⟩
          · rw [show getMinSpecializations (a :: gt) (b :: it)
                = (if a = '?' then [(if b = 'Y' then 'N' else 'Y') :: gt] else [])
                  ++ (getMinSpecializations gt it).map (fun t => a :: t) from rfl,
              List.mem_append]
            exact Or.inr (List.mem_map.mpr ⟨p', hp'mem, rfl⟩)
          · exact (moreGeneral_cons_iff a c p' st).mpr ⟨hfac, hwc, hp'ge⟩
        · have hfcb' : factorMatch c b = false := by simpa using hfcb
          rcases (factorMatch_eq_false_iff c b).mp hfcb' with ⟨hcb, hcq, hbq⟩
          have hcchar : hypChar c := hchar c (List.mem_cons_self c st)
          have hbbin : binChar b := hbin b (List.mem_cons_self b it)
          have hc : c = (if b = 'Y' then 'N' else 'Y') := by
            rcases hbbin with hb | hb <;> rcases hcchar with hcy | hcy | hcy <;>
              subst hb <;> simp_all
          have haq : a = '?' := by
            rw [factorMatch_iff] at hfac hfab
            rcases hfac with h | h | h
            · rcases hfab with h2 | h2 | h2
              · exact absurd (h.symm.trans h2) hcb
              · exact h2
              · exact absurd h2 hbq
            · exact h
            · exact absurd h hcq
          refine ⟨c :: gt, ?_, ?_⟩
          · rw [show getMinSpecializations (a :: gt) (b :: it)
                = (if a = '?' then [(if b = 'Y' then 'N' else 'Y') :: gt] else [])
                  ++ (getMinSpecializations gt it).map (fun t => a :: t) from rfl,
              List.mem_append]
            refine Or.inl ?_
            rw [if_pos haq, ← hc]
            exact List.mem_singleton.mpr rfl
          · exact (moreGeneral_cons_iff c c gt st).mpr
              ⟨factorMatch_refl c, fun hq => hq, hgs'⟩

/-- Every member of a list of equal-width hypotheses sits below some member
that survives `_removeMoreSpecific` (an undominated member). -/
theorem exists_undominated_fuel (n : Nat) :
    ∀ (k : Nat) (l : List Hyp), (∀ z ∈ l, z.length = n) →
      ∀ x ∈ l, n - countWild x ≤ k →
        ∃ y ∈ l, moreGeneral y x = true
          ∧ ∀ z ∈ l, z ≠ y → moreSpecific y z = false := by
  intro k
  induction k with
  | zero =>
    intro l hlen x hx hk
    by_cases hdom : ∃ z ∈ l, z ≠ x ∧ moreSpecific x z = true
    · obtain ⟨z, hz, hneq, hspec⟩ := hdom
      have h1 : countWild x < countWild z := countWild_lt_of_strict hspec (Ne.symm hneq)
      have h2 : countWild z ≤ z.length := countWild_le_length z
      have h3 : z.length = n := hlen z hz
      exact absurd rfl (by omega : ¬(0 = 0))
    · refine ⟨x, hx, moreGeneral_refl x, fun z hz hneq => ?_⟩
      by_contra hcontra
      rw [Bool.not_eq_false] at hcontra
      exact hdom ⟨z, hz, hneq, hcontra⟩
  | succ k ihk =>
    intro l hlen x hx hk
    by_cases hdom : ∃ z ∈ l, z ≠ x ∧ moreSpecific x z = true
    · obtain ⟨z, hz, hneq, hspec⟩ := hdom
      have h1 : countWild x < countWild z := countWild_lt_of_strict hspec (Ne.symm hneq)
      have h2 : countWild z ≤ z.length := countWild_le_length z
      have h3 : z.length = n := hlen z hz
      obtain ⟨y, hy, hge, hund⟩ := ihk l hlen z hz (by omega)
      exact ⟨y, hy, moreGeneral_trans hge hspec, hund⟩
    · refine ⟨x, hx, moreGeneral_refl x, fun z hz hneq => ?_⟩
      by_contra hcontra
      rw [Bool.not_eq_false] at hcontra
      exact hdom ⟨z, hz, hneq, hcontra⟩

/-- Wrapper: every member of the pruning snapshot is below some survivor. -/
theorem exists_survivor (n : Nat) (l : List Hyp) (hlen : ∀ z ∈ l, z.length = n)
    (x : Hyp) (hx : x ∈ l) :
    ∃ y ∈ removeMoreSpecific l, moreGeneral y x = true := by
  obtain ⟨y, hy, hge, hund⟩ := exists_undominated_fuel n n l hlen x hx (by omega)
  exact ⟨y, (mem_removeMoreSpecific l y).mpr ⟨hy, hund⟩, hge⟩

/-! ### Preservation of the engine invariant -/

theorem length_le_one_cases {S : List Hyp} (h : S.length ≤ 1) :
    S = [] ∨ ∃ a, S = [a] := by
  cases S with
  | nil => exact Or.inl rfl
  | cons a t =>
    cases t with
    | nil => exact Or.inr ⟨a, rfl⟩
    | cons b u => simp at h

theorem processSpecializations_subset (n : Nat) (specs0 S0 : List Hyp) :
    ∀ v ∈ processSpecializations n specs0 S0, v ∈ specs0 := by
  intro v hv
  obtain ⟨s, _, hvs, _⟩ := (mem_processSpecializations n specs0 S0 v).mp hv
  exact hvs

theorem processSpecializations_nodup (n : Nat) (specs0 S0 : List Hyp)
    (hS0 : S0.length ≤ 1) (hnd : specs0.Nodup) :
    (processSpecializations n specs0 S0).Nodup := by
  rcases length_le_one_cases hS0 with h | ⟨a, h⟩ <;> subst h
  · simp [processSpecializations]
  · unfold processSpecializations
    simp only [List.flatMap_cons, List.flatMap_nil, List.append_nil]
    exact hnd.filter _

theorem nodup_flatMap_of_disj {f : Hyp → List Hyp} :
    ∀ (l : List Hyp), l.Nodup → (∀ g ∈ l, (f g).Nodup) →
      (∀ g1 ∈ l, ∀ g2 ∈ l, g1 ≠ g2 → ∀ v, v ∈ f g1 → v ∈ f g2 → False) →
      (l.flatMap f).Nodup := by
  intro l
  induction l with
  | nil => intro _ _ _; simp
  | cons x t ihl =>
    intro hnd hparts hdisj
    rw [List.flatMap_cons]
    obtain ⟨hxnot, htnd⟩ := List.nodup_cons.mp hnd
    apply List.Nodup.append
    · exact hparts x (List.mem_cons_self x t)
    · exact ihl htnd (fun g hg => hparts g (List.mem_cons_of_mem x hg))
        (fun g1 hg1 g2 hg2 => hdisj g1 (List.mem_cons_of_mem x hg1)
          g2 (List.mem_cons_of_mem x hg2))
    · intro v hv1 hv2
      rw [List.mem_flatMap] at hv2
      obtain ⟨g, hg, hvg⟩ := hv2
      have hne : x ≠ g := fun hcontra => hxnot (hcontra ▸ hg)
      exact hdisj x (List.mem_cons_self x t) g (List.mem_cons_of_mem x hg) hne v hv1 hvg

theorem getMinGeneralization_chars :
    ∀ {s i : List Char}, (∀ c ∈ i, binChar c) →
      ((∀ c ∈ s, hypChar c) ∨ (∀ c ∈ s, c = '0')) →
      ∀ c ∈ getMinGeneralization s i, hypChar c := by
  intro s
  induction s with
  | nil => intro i _ _ c hc; simp [getMinGeneralization] at hc
  | cons x t ih =>
    intro i hbin hs c hc
    cases i with
    | nil => simp [getMinGeneralization] at hc
    | cons b it =>
      have hbb : binChar b := hbin b (List.mem_cons_self b it)
      have hstail : ((∀ c ∈ t, hypChar c) ∨ (∀ c ∈ t, c = '0')) := by
        rcases hs with h | h
        · exact Or.inl (fun c hc => h c (List.mem_cons_of_mem x hc))
        · exact Or.inr (fun c hc => h c (List.mem_cons_of_mem x hc))
      rw [show getMinGeneralization (x :: t) (b :: it)
          = (if factorMatch x b then x else if x = '0' then b else '?')
            :: getMinGeneralization t it from rfl] at hc
      rcases List.mem_cons.mp hc with hc | hc
      · subst hc
        by_cases hf : factorMatch x b = true
        · rcases hs with h | h
          · simpa [hf] using h x (List.mem_cons_self x t)
          · exfalso
            have hx0 : x = '0' := h x (List.mem_cons_self x t)
            rw [hx0] at hf
            rcases hbb with hb | hb <;> rw [hb] at hf <;> exact absurd hf (by decide)
        · simp only [Bool.not_eq_true] at hf
          rw [hf]
          by_cases hx0 : x = '0'
          · simp only [hx0, if_true, if_false]
            rcases hbb with hb | hb <;> simp [hb, hypChar]
          · simp [hx0, hypChar]
      · exact ih (fun c hc => hbin c (List.mem_cons_of_mem b hc)) hstail c hc

theorem removeMoreSpecific_nil : removeMoreSpecific [] = [] := rfl

/-- The invariant is preserved by the positive-example branch. -/
theorem wf_posStep_aux (n : Nat) (S G : List Hyp) (i : Instance)
    (hwf : WFState n S G) (hilen : i.length = n) (hibin : ∀ c ∈ i, binChar c) :
    WFState n
      (S.filter (fun s => matchH s i)
        ++ S.flatMap (fun s =>
             if matchH s i then []
             else if processGeneralization (getMinGeneralization s i)
                      (removeNonMatching G i)
             then [getMinGeneralization s i] else []))
      (removeNonMatching G i) := by
  have hG'f : removeNonMatching G i = G.filter (fun g => matchH g i) :=
    removeNonMatching_eq_filter G i
  have hblmem : ∀ s' ∈ S.flatMap (fun s =>
      if matchH s i then []
      else if processGeneralization (getMinGeneralization s i) (removeNonMatching G i)
      then [getMinGeneralization s i] else []),
      ∃ s ∈ S, matchH s i = false
        ∧ processGeneralization (getMinGeneralization s i) (removeNonMatching G i) = true
        ∧ s' = getMinGeneralization s i := by
    intro s' h
    rw [List.mem_flatMap] at h
    obtain ⟨s, hs, hmem⟩ := h
    by_cases hm : matchH s i = true
    · rw [if_pos hm] at hmem; simp at hmem
    · rw [if_neg hm] at hmem
      simp only [Bool.not_eq_true] at hm
      by_cases hacc : processGeneralization (getMinGeneralization s i)
          (removeNonMatching G i) = true
      · rw [if_pos hacc, List.mem_singleton] at hmem
        exact ⟨s, hs, hm, hacc, hmem⟩
      · rw [if_neg hacc] at hmem; simp at hmem
  refine ⟨?_, ?_, ?_, ?_, ?_, ?_⟩
  · rcases length_le_one_cases hwf.slen with hS | ⟨a, hS⟩ <;> subst hS
    · simp
    · by_cases hm : matchH a i = true
      · simp [hm]
      · simp only [Bool.not_eq_true] at hm
        by_cases hacc : processGeneralization (getMinGeneralization a i)
            (removeNonMatching G i) = true
        · simp [hm, hacc]
        · simp only [Bool.not_eq_true] at hacc
          simp [hm, hacc]
  · intro s' hmem'
    rcases List.mem_append.mp hmem' with h | h
    · exact hwf.sgood s' (List.mem_filter.mp h).1
    · obtain ⟨s, hs, hmfalse, hacc, rfl⟩ := hblmem s' h
      obtain ⟨hslen, hsgood⟩ := hwf.sgood s hs
      constructor
      · rw [getMinGeneralization, List.length_zipWith, hslen, hilen]
        exact Nat.min_self n
      · refine Or.inr (getMinGeneralization_chars hibin ?_)
        rcases hsgood with h0 | hchar
        · refine Or.inr ?_
          intro c hc
          rw [h0] at hc
          exact List.eq_of_mem_replicate (by simpa [seedS] using hc)
        · exact Or.inl hchar
  · rw [hG'f]
    exact hwf.gnodup.filter _
  · intro g hg
    rw [hG'f] at hg
    exact hwf.glen g (List.mem_filter.mp hg).1
  · intro g1 hg1 g2 hg2 hne
    rw [hG'f] at hg1 hg2
    exact hwf.gantichain g1 (List.mem_filter.mp hg1).1 g2 (List.mem_filter.mp hg2).1 hne
  · by_cases hG' : removeNonMatching G i = []
    · exact Or.inl hG'
    · refine Or.inr ?_
      intro s' hmem' hne
      have hGne : G ≠ [] := by
        intro h
        apply hG'
        rw [hG'f, h]
        rfl
      have hbdd := hwf.bounded.resolve_left hGne
      rcases List.mem_append.mp hmem' with h | h
      · obtain ⟨hsS, hsm⟩ := List.mem_filter.mp h
        obtain ⟨g, hg, hge⟩ := hbdd s' hsS hne
        refine ⟨g, ?_, hge⟩
        rw [hG'f]
        exact List.mem_filter.mpr ⟨hg, matchH_of_moreGeneral hge hsm⟩
      · obtain ⟨s, hs, hmfalse, hacc, rfl⟩ := hblmem s' h
        rcases (processGeneralization_iff _ _).mp hacc with h0 | ⟨g, hg, hge⟩
        · exact absurd h0 hG'
        · exact ⟨g, hg, hge⟩

/-- The invariant is preserved by `posStep`. -/
theorem wf_posStep (n : Nat) (S G : List Hyp) (i : Instance)
    (hwf : WFState n S G) (hilen : i.length = n) (hibin : ∀ c ∈ i, binChar c) :
    WFState n (posStep S G i).1 (posStep S G i).2 := by
  rw [posStep_eq]
  exact wf_posStep_aux n S G i hwf hilen hibin

theorem undominated_of_filter {l : List Hyp} {v : Hyp}
    (h : (!(l.any (fun g2 => decide (g2 ≠ v) && moreSpecific v g2))) = true) :
    ∀ z ∈ l, z ≠ v → moreSpecific v z = false := by
  intro z hz hne
  rw [Bool.not_eq_true', List.any_eq_false] at h
  have hzf := h z hz
  by_contra hcontra
  rw [Bool.not_eq_false] at hcontra
  simp [hne, hcontra] at hzf

/-- The invariant is preserved by the negative-example branch. -/
theorem wf_negStep_aux (n : Nat) (S G : List Hyp) (i : Instance)
    (hwf : WFState n S G) (_hilen : i.length = n) (hibin : ∀ c ∈ i, binChar c) :
    WFState n (S.filter (fun s => !matchH s i))
      (removeMoreSpecific
        (G.filter (fun g => !matchH g i)
          ++ G.flatMap (fun g =>
               processSpecializations n (getMinSpecializations g i)
                 (S.filter (fun s => !matchH s i))))) := by
  set S' := S.filter (fun s => !matchH s i) with hSpdef
  set A := G.filter (fun g => !matchH g i) with hAdef
  set B := G.flatMap (fun g =>
      processSpecializations n (getMinSpecializations g i) S') with hBdef
  have hS'mem : ∀ s ∈ S', s ∈ S ∧ matchH s i = false := by
    intro s hs
    rw [hSpdef, List.mem_filter] at hs
    exact ⟨hs.1, by simpa using hs.2⟩
  have hBspec : ∀ v ∈ B, ∃ g ∈ G, v ∈ getMinSpecializations g i := by
    intro v hv
    rw [hBdef, List.mem_flatMap] at hv
    obtain ⟨g, hg, hvg⟩ := hv
    exact ⟨g, hg, processSpecializations_subset n _ _ v hvg⟩
  have hlenAB : ∀ z ∈ A ++ B, z.length = n := by
    intro z hz
    rcases List.mem_append.mp hz with h | h
    · rw [hAdef, List.mem_filter] at h
      exact hwf.glen z h.1
    · obtain ⟨g, hg, hvg⟩ := hBspec z h
      have hlen := (moreGeneral_of_mem_getMinSpecializations hvg).1
      rw [← moreGeneral_length hlen]
      exact hwf.glen g hg
  have hAmem : ∀ g ∈ G, matchH g i = false → g ∈ A := by
    intro g hg hm
    rw [hAdef, List.mem_filter]
    exact ⟨hg, by simp [hm]⟩
  have hS'len : S'.length ≤ 1 := by
    rw [hSpdef]
    exact le_trans (List.length_filter_le _ _) hwf.slen
  refine ⟨?_, ?_, ?_, ?_, ?_, ?_⟩
  · exact hS'len
  · intro s hs
    exact hwf.sgood s (hS'mem s hs).1
  · rw [removeMoreSpecific_eq_filter, List.filter_append]
    apply List.Nodup.append
    · rw [hAdef]
      exact (hwf.gnodup.filter _).filter _
    · rw [hBdef, List.filter_flatMap]
      apply nodup_flatMap_of_disj G hwf.gnodup
      · intro g hg
        exact (processSpecializations_nodup n _ S' hS'len
          (getMinSpecializations_nodup g i)).filter _
      · intro g1 hg1 g2 hg2 hne v hv1 hv2
        rw [List.mem_filter] at hv1 hv2
        obtain ⟨hv1b, hv1p⟩ := hv1
        obtain ⟨hv2b, _⟩ := hv2
        have hvs1 : v ∈ getMinSpecializations g1 i :=
          processSpecializations_subset n _ _ v hv1b
        have hvs2 : v ∈ getMinSpecializations g2 i :=
          processSpecializations_subset n _ _ v hv2b
        have hundv := undominated_of_filter hv1p
        by_cases hm1 : matchH g1 i = true
        · by_cases hm2 : matchH g2 i = true
          · exact hne (getMinSpecializations_parent_unique hibin hm1 hm2 hvs1 hvs2)
          · simp only [Bool.not_eq_true] at hm2
            obtain ⟨hge2, hnev2⟩ := moreGeneral_of_mem_getMinSpecializations hvs2
            have hg2AB : g2 ∈ A ++ B := List.mem_append_left B (hAmem g2 hg2 hm2)
            have hfalse : moreGeneral g2 v = false :=
              hundv g2 hg2AB (fun hcontra => hnev2 hcontra.symm)
            rw [hge2] at hfalse
            simp at hfalse
        · simp only [Bool.not_eq_true] at hm1
          obtain ⟨hge1, hnev1⟩ := moreGeneral_of_mem_getMinSpecializations hvs1
          have hg1AB : g1 ∈ A ++ B := List.mem_append_left B (hAmem g1 hg1 hm1)
          have hfalse : moreGeneral g1 v = false :=
            hundv g1 hg1AB (fun hcontra => hnev1 hcontra.symm)
          rw [hge1] at hfalse
          simp at hfalse
    · intro v hv1 hv2
      rw [List.mem_filter] at hv1
      obtain ⟨hvA, hvp⟩ := hv1
      rw [hBdef, List.filter_flatMap, List.mem_flatMap] at hv2
      obtain ⟨g, hg, hvg⟩ := hv2
      rw [List.mem_filter] at hvg
      have hvs : v ∈ getMinSpecializations g i :=
        processSpecializations_subset n _ _ v hvg.1
      obtain ⟨hgev, hnev⟩ := moreGeneral_of_mem_getMinSpecializations hvs
      have hundv := undominated_of_filter hvp
      rw [hAdef, List.mem_filter] at hvA
      obtain ⟨hvG, _⟩ := hvA
      by_cases hm : matchH g i = true
      · have hanti := hwf.gantichain v hvG g hg hnev
        have hfalse : moreGeneral g v = false := hanti
        rw [hgev] at hfalse
        simp at hfalse
      · simp only [Bool.not_eq_true] at hm
        have hgAB : g ∈ A ++ B := List.mem_append_left B (hAmem g hg hm)
        have hfalse : moreGeneral g v = false :=
          hundv g hgAB (fun hcontra => hnev hcontra.symm)
        rw [hgev] at hfalse
        simp at hfalse
  · intro z hz
    exact hlenAB z ((mem_removeMoreSpecific _ z).mp hz).1
  · intro g1 hg1 g2 hg2 hne
    have h1 := (mem_removeMoreSpecific _ g1).mp hg1
    have h2 := (mem_removeMoreSpecific _ g2).mp hg2
    exact h1.2 g2 h2.1 (fun hcontra => hne hcontra.symm)
  · by_cases hG : G = []
    · left
      rw [hAdef, hBdef, hG]
      rfl
    · right
      intro s hsS' hsne
      obtain ⟨hsS, hsnm⟩ := hS'mem s hsS'
      have hbdd := hwf.bounded.resolve_left hG
      obtain ⟨g, hgG, hge⟩ := hbdd s hsS hsne
      by_cases hm : matchH g i = true
      · have hchar : ∀ c ∈ s, hypChar c := by
          rcases (hwf.sgood s hsS).2 with h0 | hch
          · exact absurd h0 hsne
          · exact hch
        obtain ⟨pstar, hpmem, hpge⟩ :=
          exists_spec_moreGeneral hibin hchar hge hm hsnm
        have hpB : pstar ∈ B := by
          rw [hBdef, List.mem_flatMap]
          refine ⟨g, hgG, ?_⟩
          exact (mem_processSpecializations n _ S' pstar).mpr
            ⟨s, hsS', hpmem, Or.inl hpge⟩
        obtain ⟨y, hyG', hyge⟩ := exists_survivor n (A ++ B) hlenAB pstar
          (List.mem_append_right A hpB)
        exact ⟨y, hyG', moreGeneral_trans hyge hpge⟩
      · simp only [Bool.not_eq_true] at hm
        obtain ⟨y, hyG', hyge⟩ := exists_survivor n (A ++ B) hlenAB g
          (List.mem_append_left B (hAmem g hgG hm))
        exact ⟨y, hyG', moreGeneral_trans hyge hge⟩

/-- The invariant is preserved by `negStep`. -/
theorem wf_negStep (n : Nat) (S G : List Hyp) (i : Instance)
    (hwf : WFState n S G) (hilen : i.length = n) (hibin : ∀ c ∈ i, binChar c) :
    WFState n (negStep n S G i).1 (negStep n S G i).2 := by
  rw [negStep_eq, removeMatching_eq_filter]
  exact wf_negStep_aux n S G i hwf hilen hibin

/-- The seeded boundaries satisfy the invariant. -/
theorem wf_initial (n : Nat) : WFState n (initializeS n) (initializeG n) := by
  refine ⟨?_, ?_, ?_, ?_, ?_, ?_⟩
  · simp [initializeS]
  · intro s hs
    simp only [initializeS, List.mem_singleton] at hs
    subst hs
    exact ⟨by simp [seedS], Or.inl rfl⟩
  · simp [initializeG]
  · intro g hg
    simp only [initializeG, List.mem_singleton] at hg
    subst hg
    simp
  · intro g1 hg1 g2 hg2 hne
    simp only [initializeG, List.mem_singleton] at hg1 hg2
    exact absurd (hg1.trans hg2.symm) hne
  · right
    intro s hs hne
    simp only [initializeS, List.mem_singleton] at hs
    exact absurd hs hne

/-- Every state the loop reaches on well-formed training data satisfies the
invariant. -/
theorem reachedStates_wf (n : Nat) :
    ∀ (ts : List TrainEx) (S G : List Hyp), WFTraining n ts → WFState n S G →
      ∀ p ∈ reachedStates n ts S G, WFState n p.1 p.2 := by
  intro ts
  induction ts with
  | nil => intro S G _ _ p hp; simp [reachedStates] at hp
  | cons ex rest ih =>
    intro S G hwt hwf p hp
    obtain ⟨hexlen, hexbin⟩ := hwt ex (List.mem_cons_self ex rest)
    cases hpos : isPositive ex with
    | error e => simp [reachedStates, hpos] at hp
    | ok pos =>
      simp only [reachedStates, hpos] at hp
      have hwfSG : WFState n (if pos then posStep S G ex.1 else negStep n S G ex.1).1
          (if pos then posStep S G ex.1 else negStep n S G ex.1).2 := by
        cases pos
        · simp only [Bool.false_eq_true, if_false]
          exact wf_negStep n S G ex.1 hwf hexlen hexbin
        · simp only [if_true]
          exact wf_posStep n S G ex.1 hwf hexlen hexbin
      rcases List.mem_cons.mp hp with hp | hp
      · rw [hp]
        exact hwfSG
      · by_cases hconv : (if pos then posStep S G ex.1 else negStep n S G ex.1).1
            = (if pos then posStep S G ex.1 else negStep n S G ex.1).2
        · rw [if_pos hconv] at hp
          simp at hp
        · rw [if_neg hconv] at hp
          exact ih _ _ (fun e he => hwt e (List.mem_cons_of_mem _ he)) hwfSG p hp

/-- With at most one member in `S` and no duplicates in `G`, set-equality of
the two boundaries coincides with Python's list equality. -/
theorem listEq_of_setEq {S G : List Hyp} (hS : S.length ≤ 1) (hG : G.Nodup)
    (h : ∀ x : Hyp, x ∈ S ↔ x ∈ G) : S = G := by
  rcases length_le_one_cases hS with hS0 | ⟨a, hS0⟩ <;> subst hS0
  · cases G with
    | nil => rfl
    | cons b t => exact absurd ((h b).mpr (List.mem_cons_self b t)) (by simp)
  · have haG : a ∈ G := (h a).mp (List.mem_cons_self a [])
    have hall : ∀ x ∈ G, x = a := by
      intro x hx
      have := (h x).mpr hx
      simpa using this
    cases G with
    | nil => simp at haG
    | cons b t =>
      have hb : b = a := hall b (List.mem_cons_self b t)
      obtain ⟨hbnot, _⟩ := List.nodup_cons.mp hG
      have ht : t = [] := by
        cases t with
        | nil => rfl
        | cons c u =>
          have hc : c = a := hall c (List.mem_cons_of_mem b (List.mem_cons_self c u))
          refine absurd ?_ hbnot
          rw [hb, ← hc]
          exact List.mem_cons_self c u
      rw [hb, ht]

/-- As soon as a reached state is converged (Python list equality), the loop
returns it. -/
theorem runLoop_stops (n : Nat) :
    ∀ (ts : List TrainEx) (S G : List Hyp) (p : List Hyp × List Hyp),
      p ∈ reachedStates n ts S G → p.1 = p.2 →
      runLoop n ts S G = Except.ok (p.2, p.1) := by
  intro ts
  induction ts with
  | nil => intro S G p hp _; simp [reachedStates] at hp
  | cons ex rest ih =>
    intro S G p hp hpc
    cases hpos : isPositive ex with
    | error e => simp [reachedStates, hpos] at hp
    | ok pos =>
      simp only [reachedStates, hpos] at hp
      simp only [runLoop, hpos]
      rcases List.mem_cons.mp hp with hp | hp
      · subst hp
        rw [if_pos hpc]
      · by_cases hconv : (if pos then posStep S G ex.1 else negStep n S G ex.1).1
            = (if pos then posStep S G ex.1 else negStep n S G ex.1).2
        · rw [if_pos hconv] at hp
          simp at hp
        · rw [if_neg hconv] at hp
          rw [if_neg hconv]
          exact ih _ _ p hp hpc

/-- A run that ends converged is unchanged by appending further examples. -/
theorem runLoop_extend (n : Nat) :
    ∀ (ts : List TrainEx) (S G Gf Sf : List Hyp) (ext : List TrainEx),
      runLoop n ts S G = Except.ok (Gf, Sf) → Sf = Gf → ts ≠ [] →
      runLoop n (ts ++ ext) S G = Except.ok (Gf, Sf) := by
  intro ts
  induction ts with
  | nil => intro S G Gf Sf ext _ _ hne; exact absurd rfl hne
  | cons ex rest ih =>
    intro S G Gf Sf ext hrun hconv _
    rw [List.cons_append]
    cases hpos : isPositive ex with
    | error e =>
      simp only [runLoop, hpos] at hrun
      exact absurd hrun (by simp)
    | ok pos =>
      simp only [runLoop, hpos] at hrun ⊢
      by_cases hSG : (if pos then posStep S G ex.1 else negStep n S G ex.1).1
          = (if pos then posStep S G ex.1 else negStep n S G ex.1).2
      · rw [if_pos hSG] at hrun ⊢
        exact hrun
      · rw [if_neg hSG] at hrun ⊢
        cases rest with
        | nil =>
          simp only [runLoop] at hrun
          have h1 : (if pos then posStep S G ex.1 else negStep n S G ex.1).2 = Gf :=
            congrArg Prod.fst (Except.ok.inj hrun)
          have h2 : (if pos then posStep S G ex.1 else negStep n S G ex.1).1 = Sf :=
            congrArg Prod.snd (Except.ok.inj hrun)
          refine absurd ?_ hSG
          rw [h2, hconv, ← h1]
        | cons e2 r2 =>
          exact ih _ _ Gf Sf ext hrun hconv (by simp)

/-- Claim C3: at every state the engine reaches on well-formed binary
training data, set-equality of `S` and `G` coincides with the list equality
the code tests after each example; the loop stops and returns as soon as a
reached state is converged; and a run that halted converged returns the same
`(G, S)` pair when the training set is extended by any further examples. -/
theorem claim_C3 (n : Nat) (ts ext : List TrainEx) (Gfin Sfin : List Hyp) :
    (WFTraining n ts →
      ∀ p ∈ reachedStates n ts (initializeS n) (initializeG n),
        ((∀ x : Hyp, x ∈ p.1 ↔ x ∈ p.2) ↔ p.1 = p.2))
    ∧ (∀ p ∈ reachedStates n ts (initializeS n) (initializeG n),
        p.1 = p.2 →
        runLoop n ts (initializeS n) (initializeG n) = Except.ok (p.2, p.1))
    ∧ (runLoop n ts (initializeS n) (initializeG n) = Except.ok (Gfin, Sfin) →
        Sfin = Gfin → ts ≠ [] →
        runLoop n (ts ++ ext) (initializeS n) (initializeG n)
          = Except.ok (Gfin, Sfin)) := by
  refine ⟨?_, ?_, ?_⟩
  · intro hwt p hp
    have hwf := reachedStates_wf n ts (initializeS n) (initializeG n) hwt
      (wf_initial n) p hp
    constructor
    · intro h
      exact listEq_of_setEq hwf.slen hwf.gnodup h
    · intro h x
      rw [h]
  · intro p hp hpc
    exact runLoop_stops n ts (initializeS n) (initializeG n) p hp hpc
  · intro h1 h2 h3
    exact runLoop_extend n ts (initializeS n) (initializeG n) Gfin Sfin ext h1 h2 h3

/-- Witness for `claim_C3`: a 2-attribute run that converges after three
examples; the extension leaves the converged pair unchanged, and at the
converged state set-equality and list equality coincide. -/
theorem claim_C3_witness :
    runLoop 2 ([(['Y','N'], '+'), (['Y','Y'], '-'), (['N','N'], '-')]
        ++ [(['N','Y'], '+')]) (initializeS 2) (initializeG 2)
      = Except.ok ([['Y','N']], [['Y','N']])
    ∧ ((∀ x : Hyp, x ∈ ([['Y','N']] : List Hyp) ↔ x ∈ ([['Y','N']] : List Hyp))
        ↔ ([['Y','N']] : List Hyp) = [['Y','N']]) := by
  refine ⟨?_, ?_⟩
  · exact (claim_C3 2 [(['Y','N'], '+'), (['Y','Y'], '-'), (['N','N'], '-')]
      [(['N','Y'], '+')] [['Y','N']] [['Y','N']]).2.2 (by decide) rfl (by decide)
  · exact (claim_C3 2 [(['Y','N'], '+'), (['Y','Y'], '-'), (['N','N'], '-')]
      [] [['Y','N']] [['Y','N']]).1 (by decide) ([['Y','N']], [['Y','N']]) (by decide)

/-- Claim C4 (amended): after every per-example update the engine reaches on
well-formed binary training data, every member of `S` other than the
all-null seed is more-specific-or-equal to some member of `G`, unless `G`
is empty. -/
theorem claim_C4_amended (n : Nat) (ts : List TrainEx) (hwt : WFTraining n ts) :
    ∀ p ∈ reachedStates n ts (initializeS n) (initializeG n),
      p.2 = [] ∨ ∀ s ∈ p.1, s ≠ seedS n → ∃ g ∈ p.2, moreGeneral g s = true := by
  intro p hp
  exact (reachedStates_wf n ts (initializeS n) (initializeG n) hwt
    (wf_initial n) p hp).bounded

/-- Claim C4 (counterexample): after the first (negative) example of the run
below, `S` still holds the all-null seed while `G` holds two specialized
hypotheses; the seed is more-specific-or-equal to no member of the non-empty
`G` (the null placeholder mismatches every concrete factor), so the claimed
invariant fails mid-loop. -/
theorem claim_C4_counterexample :
    WFTraining 2 [(['Y','N'], '-')]
    ∧ reachedStates 2 [(['Y','N'], '-')] (initializeS 2) (initializeG 2)
        = [([['0','0']], [['N','?'], ['?','Y']])]
    ∧ ([['N','?'], ['?','Y']] : List Hyp) ≠ []
    ∧ ['0','0'] ∈ ([['0','0']] : List Hyp)
    ∧ ¬ ∃ g ∈ ([['N','?'], ['?','Y']] : List Hyp), moreGeneral g ['0','0'] = true := by
  refine ⟨by decide, by decide, by decide, by decide, by decide⟩

/-- Witness for `claim_C4_amended` at the second state of a concrete run. -/
theorem claim_C4_witness :
    ([['?','N']] : List Hyp) = [] ∨ ∀ s ∈ ([['Y','N']] : List Hyp), s ≠ seedS 2 →
      ∃ g ∈ ([['?','N']] : List Hyp), moreGeneral g s = true :=
  claim_C4_amended 2 [(['Y','N'], '+'), (['Y','Y'], '-'), (['N','N'], '-')]
    (by decide) ([['Y','N']], [['?','N']]) (by decide)
